import Mathlib

/-!
Verification of the MiditoBytebeat core: the expression compiler
(`generateBytebeat`), the pitch-to-coefficient map (`pitchToCoeff`, both
from `src/bytebeatUtils.ts`) and the real-time sample-synthesis loop
(`onaudioprocess` in `src/types.ts`), shallowly embedded over exact
rationals.  The textual nested-ternary expression produced by the source
is represented structurally: the string `"0"` becomes `BytebeatExpr.zero`
and the chain `( (t%P<N1)?(t*C1): ... 0)` becomes `BytebeatExpr.chain`
over an ordered segment list evaluated first-match-wins.
-/

/-- A note record, as in `src/types.ts` (`interface Note`).  JS numbers are
modelled as exact rationals; the MIDI pitch is an integer. -/
structure Note where
  id : String
  pitch : ℤ
  startTime : ℚ
  duration : ℚ
  coeff : ℚ
  restAfter : ℚ
  deriving DecidableEq

/-- Converter options, as in `src/types.ts` (`interface ConverterOptions`).
`totalPeriod` is the wraparound modulus for virtual time (an integer per
the data model). -/
structure ConverterOptions where
  baseUnit : ℚ
  restDuration : ℚ
  totalPeriod : ℤ
  basePitch : ℤ
  baseCoeff : ℚ
  deriving DecidableEq

/-- The value guarded by one segment of the compiled expression: either the
sounding branch `(t*C)` for a coefficient `C`, or the literal `0` of a
silence branch. -/
inductive SegValue where
  | tone (c : ℚ)
  | silence
  deriving DecidableEq

/-- One threshold-guarded piece `(t%P<threshold)?value:` of the compiled
expression. -/
structure Segment where
  threshold : ℤ
  value : SegValue
  deriving DecidableEq

/-- The compiled expression: `"0"` for the empty note list, otherwise the
period together with the emitted segment chain (terminated by the default
zero branch, which is implicit in evaluation). -/
inductive BytebeatExpr where
  | zero
  | chain (period : ℤ) (segs : List Segment)
  deriving DecidableEq

/-- JS `Number.prototype.toFixed(2)` followed by `parseFloat`, on exact
rationals: round to the nearest multiple of 1/100, ties toward the larger
value (ECMA-262 picks the larger candidate integer on ties). -/
def toFixed2 (c : ℚ) : ℚ := (⌊c * 100 + 1 / 2⌋ : ℚ) / 100

/-- The loop body of `generateBytebeat` (src/bytebeatUtils.ts lines 13-26):
walk the notes with the running cumulative time `acc`, emitting the
sounding segment `(t%P<floor(noteEnd))?(t*coeff):` for each note and, when
`restAfter > 0` and the note is not the last, the silence segment
`(t%P<floor(acc))?0:` after advancing `acc` by `duration*baseUnit`. -/
def genSegsAux (o : ConverterOptions) : ℚ → List Note → List Segment
  | _, [] => []
  | acc, n :: rest =>
    let noteEnd := acc + n.duration * o.baseUnit - n.restAfter
    let acc2 := acc + n.duration * o.baseUnit
    if 0 < n.restAfter ∧ rest ≠ [] then
      ⟨⌊noteEnd⌋, SegValue.tone (toFixed2 n.coeff)⟩ ::
        ⟨⌊acc2⌋, SegValue.silence⟩ :: genSegsAux o acc2 rest
    else
      ⟨⌊noteEnd⌋, SegValue.tone (toFixed2 n.coeff)⟩ :: genSegsAux o acc2 rest

/-- `generateBytebeat` from `src/bytebeatUtils.ts`: `"0"` for an empty note
list, otherwise the segment chain built from cumulative time 0. -/
def generateBytebeat (notes : List Note) (o : ConverterOptions) : BytebeatExpr :=
  if notes = [] then BytebeatExpr.zero
  else BytebeatExpr.chain o.totalPeriod (genSegsAux o 0 notes)

/-- JS `%` on integers truncates toward zero (sign of the dividend), which
is `Int.tmod`. -/
def jsMod (a b : ℤ) : ℤ := Int.tmod a b

/-- Value of one branch at integer time `t`: `(t*C)` or `0`. -/
def SegValue.eval : SegValue → ℤ → ℚ
  | SegValue.tone c, t => (t : ℚ) * c
  | SegValue.silence, _ => 0

/-- Evaluation of the nested-ternary chain at integer time `t`: each
condition `t%P < threshold` is tried in emission order, the first true one
selects its branch, and the trailing default is `0`. -/
def evalSegs (P : ℤ) : List Segment → ℤ → ℚ
  | [], _ => 0
  | s :: rest, t => if jsMod t P < s.threshold then s.value.eval t else evalSegs P rest t

/-- Evaluation of a compiled expression at integer time `t`. -/
def evalExpr : BytebeatExpr → ℤ → ℚ
  | BytebeatExpr.zero, _ => 0
  | BytebeatExpr.chain P segs, t => evalSegs P segs t

/-- `pitchToCoeff` from `src/bytebeatUtils.ts`:
`baseCoeff * 2^((pitch - basePitch)/12)` over the reals. -/
noncomputable def pitchToCoeff (pitch basePitch baseCoeff : ℝ) : ℝ :=
  baseCoeff * (2 : ℝ) ^ ((pitch - basePitch) / 12)

/-- Truncation of a rational toward zero, as JS `ToInt32` truncates the
fractional part of a finite number. -/
def ratTrunc (x : ℚ) : ℤ := if 0 ≤ x then ⌊x⌋ else ⌈x⌉

/-- `val & 0xFF` from `src/types.ts` line 139: `ToInt32` truncates toward
zero and wraps modulo 2^32, and masking with `0xFF` keeps the low byte of
that two's-complement pattern, i.e. the truncated value modulo 256 (256
divides 2^32, so the intermediate 2^32 wrap cancels). -/
def jsByte (x : ℚ) : ℤ := (ratTrunc x).emod 256

/-- The normalized amplitude `((val & 0xFF) / 128) - 1.0` from
`src/types.ts` line 139. -/
def sampleOf (x : ℚ) : ℚ := (jsByte x : ℚ) / 128 - 1

/-- The accumulator update of one `onaudioprocess` iteration
(src/types.ts lines 140-141): add the step ratio, then hard-reset to 0
when the result reaches `totalPeriod`. -/
def stepAccum (P sr v : ℚ) : ℚ :=
  if P ≤ v + sr then 0 else v + sr

/-- One iteration of the `onaudioprocess` loop body (src/types.ts lines
137-142): evaluate the compiled expression at `t = floor(v)`, normalize
the low byte to an amplitude, and advance the accumulator. -/
def renderSample (e : BytebeatExpr) (P sr v : ℚ) : ℚ × ℚ :=
  (sampleOf (evalExpr e ⌊v⌋), stepAccum P sr v)

/-- The accumulator after `n` samples, starting from the reset value 0
(`virtualTRef.current = 0`, src/types.ts line 133). -/
def iterAccum (P sr : ℚ) : ℕ → ℚ
  | 0 => 0
  | n + 1 => stepAccum P sr (iterAccum P sr n)

/-- Claim C7: zero-semitone transposition is the identity and a 12-semitone
(octave) transposition doubles the coefficient, for the equal-tempered
formula `baseCoeff * 2^((pitch - basePitch)/12)`. -/
theorem pitch_coeff_identity_octave (p c : ℝ) :
    pitchToCoeff p p c = c ∧ pitchToCoeff (p + 12) p c = 2 * c := by
  constructor
  · simp [pitchToCoeff]
  · have h1 : (p + 12 - p) / 12 = (1 : ℝ) := by ring
    rw [pitchToCoeff, h1, Real.rpow_one, mul_comm]

/-- Claim C8: the empty note sequence compiles without error to the
degenerate always-zero expression, which evaluates to 0 at every time. -/
theorem empty_notes_zero (o : ConverterOptions) (t : ℤ) :
    generateBytebeat [] o = BytebeatExpr.zero ∧
    evalExpr (generateBytebeat [] o) t = 0 := by
  constructor <;> simp [generateBytebeat, evalExpr]

/-- Sum of `duration * baseUnit` over a list of notes. -/
def sumDu (u : ℚ) (l : List Note) : ℚ := (l.map fun m => m.duration * u).sum

/-- The cumulative time cursor in front of note `i`: the sum of
`duration * baseUnit` over the first `i` notes. -/
def cursorQ (u : ℚ) (notes : List Note) (i : ℕ) : ℚ := sumDu u (notes.take i)

/-- Spec-side description of the segments emitted for note `i` (cursor
offset `a`): a sounding segment with threshold
`floor(cursor + duration*baseUnit - restAfter)` guarding `t*coeff`, then a
zero silence segment with threshold `floor` of the advanced cursor exactly
when `restAfter > 0` and the note is not the last one. -/
def specSegAt (o : ConverterOptions) (a : ℚ) (notes : List Note) (i : ℕ) : List Segment :=
  match notes[i]? with
  | none => []
  | some n =>
    ⟨⌊a + cursorQ o.baseUnit notes i + n.duration * o.baseUnit - n.restAfter⌋,
      SegValue.tone (toFixed2 n.coeff)⟩ ::
    if 0 < n.restAfter ∧ i + 1 < notes.length then
      [⟨⌊a + cursorQ o.baseUnit notes (i + 1)⌋, SegValue.silence⟩]
    else []

/-- Spec-side description of the full emitted segment list, note by note in
array order with the cumulative cursor starting at 0. -/
def specSegments (o : ConverterOptions) (notes : List Note) : List Segment :=
  (List.range notes.length).flatMap (specSegAt o 0 notes)

/-- Spec-side first-match-wins evaluation: the first segment in emission
order whose condition `t%P < threshold` holds determines the value, with a
final default of zero. -/
def firstMatchEval (P : ℤ) (segs : List Segment) (t : ℤ) : ℚ :=
  match segs.find? (fun s => jsMod t P < s.threshold) with
  | some s => s.value.eval t
  | none => 0

/-- Thresholds of the compiled expression, in emission order. -/
def exprThresholds : BytebeatExpr → List ℤ
  | BytebeatExpr.zero => []
  | BytebeatExpr.chain _ segs => segs.map Segment.threshold

/-- Coefficients of the sounding segments of the compiled expression, in
emission order. -/
def exprToneCoeffs : BytebeatExpr → List ℚ
  | BytebeatExpr.zero => []
  | BytebeatExpr.chain _ segs =>
    segs.filterMap fun s =>
      match s.value with
      | SegValue.tone c => some c
      | SegValue.silence => none

lemma specSegAt_succ (o : ConverterOptions) (a : ℚ) (n : Note) (rest : List Note) (i : ℕ) :
    specSegAt o a (n :: rest) (i + 1) = specSegAt o (a + n.duration * o.baseUnit) rest i := by
  unfold specSegAt
  cases h : rest[i]? with
  | none => simp [h]
  | some m =>
    have e1 : a + cursorQ o.baseUnit (n :: rest) (i + 1) + m.duration * o.baseUnit - m.restAfter =
        a + n.duration * o.baseUnit + cursorQ o.baseUnit rest i + m.duration * o.baseUnit -
          m.restAfter := by
      simp only [cursorQ, sumDu, List.take_succ_cons, List.map_cons, List.sum_cons]
      ring
    have e2 : a + cursorQ o.baseUnit (n :: rest) (i + 1 + 1) =
        a + n.duration * o.baseUnit + cursorQ o.baseUnit rest (i + 1) := by
      simp only [cursorQ, sumDu, List.take_succ_cons, List.map_cons, List.sum_cons]
      ring
    have e3 : (0 < m.restAfter ∧ i + 1 + 1 < (n :: rest).length) ↔
        (0 < m.restAfter ∧ i + 1 < rest.length) := by
      simp only [List.length_cons]
      constructor <;> rintro ⟨h1, h2⟩ <;> exact ⟨h1, by omega⟩
    simp only [List.getElem?_cons_succ, h]
    rw [e1, e2, if_congr e3 rfl rfl]

lemma specSegAt_zero (o : ConverterOptions) (a : ℚ) (n : Note) (rest : List Note) :
    specSegAt o a (n :: rest) 0 =
      ⟨⌊a + n.duration * o.baseUnit - n.restAfter⌋, SegValue.tone (toFixed2 n.coeff)⟩ ::
        (if 0 < n.restAfter ∧ rest ≠ [] then
          [⟨⌊a + n.duration * o.baseUnit⌋, SegValue.silence⟩] else []) := by
  unfold specSegAt
  simp only [List.getElem?_cons_zero]
  have e1 : a + cursorQ o.baseUnit (n :: rest) 0 + n.duration * o.baseUnit - n.restAfter =
      a + n.duration * o.baseUnit - n.restAfter := by
    simp [cursorQ, sumDu]
  have e2 : a + cursorQ o.baseUnit (n :: rest) (0 + 1) = a + n.duration * o.baseUnit := by
    simp [cursorQ, sumDu, List.take_succ_cons]
  have e3 : (0 < n.restAfter ∧ 0 + 1 < (n :: rest).length) ↔
      (0 < n.restAfter ∧ rest ≠ []) := by
    simp only [List.length_cons]
    constructor <;> rintro ⟨h1, h2⟩
    · exact ⟨h1, List.length_pos.mp (by omega)⟩
    · exact ⟨h1, by have := List.length_pos.mpr h2; omega⟩
  rw [e1, e2, if_congr e3 rfl rfl]

lemma genSegsAux_eq_spec (o : ConverterOptions) :
    ∀ (notes : List Note) (a : ℚ),
      genSegsAux o a notes = (List.range notes.length).flatMap (specSegAt o a notes)
  | [], a => by simp [genSegsAux]
  | n :: rest, a => by
    have IH := genSegsAux_eq_spec o rest (a + n.duration * o.baseUnit)
    rw [List.length_cons, List.range_succ_eq_map, List.flatMap_cons, List.flatMap_map]
    have hshift : ((List.range rest.length).flatMap fun i => specSegAt o a (n :: rest) (i + 1)) =
        (List.range rest.length).flatMap (specSegAt o (a + n.duration * o.baseUnit) rest) :=
      congrArg _ (funext fun i => specSegAt_succ o a n rest i)
    rw [show (fun i => specSegAt o a (n :: rest) (Nat.succ i)) =
        (fun i => specSegAt o a (n :: rest) (i + 1)) from rfl, hshift, ← IH,
      specSegAt_zero]
    simp only [genSegsAux]
    by_cases hc : 0 < n.restAfter ∧ rest ≠ []
    · rw [if_pos hc, if_pos hc]
      simp
    · rw [if_neg hc, if_neg hc]
      simp

lemma evalSegs_eq_firstMatch (P t : ℤ) :
    ∀ segs, evalSegs P segs t = firstMatchEval P segs t
  | [] => by simp [evalSegs, firstMatchEval]
  | s :: rest => by
    by_cases h : jsMod t P < s.threshold
    · rw [evalSegs, if_pos h, firstMatchEval, List.find?_cons_of_pos _ (by simpa using h)]
    · rw [evalSegs, if_neg h, firstMatchEval, List.find?_cons_of_neg _ (by simpa using h),
        ← firstMatchEval, evalSegs_eq_firstMatch P t rest]

/-- Claim C1: for a non-empty note list the compiler emits, note by note in
array order with a cumulative cursor starting at 0, a sounding segment with
threshold `floor(cursor + duration*baseUnit - restAfter)` guarding
`t * coeff` (the coefficient serialized to two decimals), followed by a
zero silence segment with threshold `floor` of the advanced cursor exactly
when `restAfter > 0` and the note is not the last; and evaluation is
first-match-wins over the emitted order with a final default of zero. -/
theorem compile_segments_spec (notes : List Note) (o : ConverterOptions)
    (h : notes ≠ []) :
    generateBytebeat notes o = BytebeatExpr.chain o.totalPeriod (specSegments o notes) ∧
    ∀ t : ℤ, evalExpr (generateBytebeat notes o) t =
      firstMatchEval o.totalPeriod (specSegments o notes) t := by
  have hgen : generateBytebeat notes o =
      BytebeatExpr.chain o.totalPeriod (genSegsAux o 0 notes) := by
    unfold generateBytebeat
    rw [if_neg h]
  have hspec : genSegsAux o 0 notes = specSegments o notes := genSegsAux_eq_spec o notes 0
  refine ⟨by rw [hgen, hspec], fun t => ?_⟩
  rw [hgen, hspec, evalExpr, evalSegs_eq_firstMatch]

lemma ratTrunc_intCast (m : ℤ) : ratTrunc (m : ℚ) = m := by
  unfold ratTrunc
  split <;> simp

/-- Claim C2: when the accumulator reaches or exceeds `totalPeriod` after a
step it is hard-reset to exactly 0 (so the next evaluated `t` is 0), not
reduced modulo the period: whenever the overshoot `v + sr - P` is nonzero,
the new accumulator differs from it, i.e. the fractional remainder is
discarded. -/
theorem accumulator_hard_reset (e : BytebeatExpr) (P sr v : ℚ) (h : P ≤ v + sr) :
    (renderSample e P sr v).2 = 0 ∧
    ⌊(renderSample e P sr v).2⌋ = 0 ∧
    (v + sr - P ≠ 0 → (renderSample e P sr v).2 ≠ v + sr - P) := by
  have hs : (renderSample e P sr v).2 = 0 := by
    show stepAccum P sr v = 0
    rw [stepAccum, if_pos h]
  refine ⟨hs, by rw [hs]; exact Int.floor_zero, fun hne => ?_⟩
  rw [hs]
  exact fun hcontra => hne hcontra.symm

theorem accumulator_hard_reset_witness :
    (3 : ℚ) ≤ 1 + 5 / 2 ∧
    ((renderSample BytebeatExpr.zero 3 (5 / 2) 1).2 = 0 ∧
      ⌊(renderSample BytebeatExpr.zero 3 (5 / 2) 1).2⌋ = 0 ∧
      ((1 : ℚ) + 5 / 2 - 3 ≠ 0 →
        (renderSample BytebeatExpr.zero 3 (5 / 2) 1).2 ≠ 1 + 5 / 2 - 3)) :=
  ⟨by norm_num, accumulator_hard_reset BytebeatExpr.zero 3 (5 / 2) 1 (by norm_num)⟩

/-- Claim C3 counterexample: the compiled expression routinely produces
non-integer raw values (two-decimal coefficients times `t`): compiling a
note with coefficient `3/2` and evaluating at `t = 1` gives the raw value
`3/2`, whose value modulo 256 is `3/2` itself, while the synthesizer's
byte is `trunc(3/2) mod 256 = 1 ≠ 3/2`: the byte does not equal the raw
value modulo 256. -/
theorem byte_mod_cex :
    evalExpr (generateBytebeat [⟨"a", 60, 0, 3, 3 / 2, 0⟩] ⟨1, 0, 10, 60, 1⟩) 1 = 3 / 2 ∧
    jsByte (3 / 2) = 1 ∧
    (3 / 2 : ℚ) - 256 * ⌊(3 / 2 : ℚ) / 256⌋ = 3 / 2 ∧
    ((jsByte (3 / 2) : ℚ)) ≠ (3 / 2 : ℚ) - 256 * ⌊(3 / 2 : ℚ) / 256⌋ := by
  have hne : ([⟨"a", 60, 0, 3, 3 / 2, 0⟩] : List Note) ≠ [] := by simp
  have hgen : generateBytebeat [⟨"a", 60, 0, 3, 3 / 2, 0⟩] ⟨1, 0, 10, 60, 1⟩ =
      BytebeatExpr.chain 10 [⟨3, SegValue.tone (3 / 2)⟩] := by
    simp only [generateBytebeat]
    rw [if_neg hne]
    norm_num [genSegsAux, toFixed2]
  have hm : jsMod 1 10 = 1 := by decide
  have hb : jsByte (3 / 2) = 1 := by
    rw [jsByte, ratTrunc, if_pos (by norm_num), (by norm_num : ⌊(3 / 2 : ℚ)⌋ = 1)]
    decide
  have hmod : (3 / 2 : ℚ) - 256 * ⌊(3 / 2 : ℚ) / 256⌋ = 3 / 2 := by
    norm_num
  refine ⟨?_, hb, hmod, ?_⟩
  · rw [hgen]
    norm_num [evalExpr, evalSegs, SegValue.eval, hm]
  · rw [hb, hmod]
    norm_num

/-- Claim C3 amended: for every raw value produced by evaluating the
compiled expression, the synthesizer extracts the byte as the raw value
truncated toward zero and reduced modulo 256 — equal to the raw value
modulo 256 exactly when the raw value is an integer — and returns
`sample = byte/128 - 1`, which always lies in `[-1, 1)`. -/
theorem sample_byte_range (e : BytebeatExpr) (P sr v : ℚ) :
    0 ≤ jsByte (evalExpr e ⌊v⌋) ∧ jsByte (evalExpr e ⌊v⌋) < 256 ∧
    (renderSample e P sr v).1 = (jsByte (evalExpr e ⌊v⌋) : ℚ) / 128 - 1 ∧
    (∀ m : ℤ, evalExpr e ⌊v⌋ = (m : ℚ) → jsByte (evalExpr e ⌊v⌋) = m.emod 256) ∧
    -1 ≤ (renderSample e P sr v).1 ∧ (renderSample e P sr v).1 < 1 := by
  have h0 : 0 ≤ jsByte (evalExpr e ⌊v⌋) := Int.emod_nonneg _ (by norm_num)
  have h1 : jsByte (evalExpr e ⌊v⌋) < 256 := Int.emod_lt_of_pos _ (by norm_num)
  have hsamp : (renderSample e P sr v).1 = (jsByte (evalExpr e ⌊v⌋) : ℚ) / 128 - 1 := rfl
  have hq0 : (0 : ℚ) ≤ (jsByte (evalExpr e ⌊v⌋) : ℚ) := by exact_mod_cast h0
  have hq1 : (jsByte (evalExpr e ⌊v⌋) : ℚ) < 256 := by exact_mod_cast h1
  refine ⟨h0, h1, hsamp, fun m hm => ?_, ?_, ?_⟩
  · rw [jsByte, hm, ratTrunc_intCast]
  · rw [hsamp]
    have hd : (0 : ℚ) ≤ (jsByte (evalExpr e ⌊v⌋) : ℚ) / 128 := by positivity
    linarith
  · rw [hsamp]
    have hd : (jsByte (evalExpr e ⌊v⌋) : ℚ) / 128 < 2 := by linarith
    linarith

theorem sample_byte_range_witness :
    0 ≤ jsByte (evalExpr (BytebeatExpr.chain 10 [⟨5, SegValue.tone 3⟩]) ⌊(2 : ℚ)⌋) ∧
    jsByte (evalExpr (BytebeatExpr.chain 10 [⟨5, SegValue.tone 3⟩]) ⌊(2 : ℚ)⌋) < 256 ∧
    (renderSample (BytebeatExpr.chain 10 [⟨5, SegValue.tone 3⟩]) 10 1 2).1 =
      (jsByte (evalExpr (BytebeatExpr.chain 10 [⟨5, SegValue.tone 3⟩]) ⌊(2 : ℚ)⌋) : ℚ) /
        128 - 1 ∧
    jsByte (evalExpr (BytebeatExpr.chain 10 [⟨5, SegValue.tone 3⟩]) ⌊(2 : ℚ)⌋) =
      (6 : ℤ).emod 256 ∧
    -1 ≤ (renderSample (BytebeatExpr.chain 10 [⟨5, SegValue.tone 3⟩]) 10 1 2).1 ∧
    (renderSample (BytebeatExpr.chain 10 [⟨5, SegValue.tone 3⟩]) 10 1 2).1 < 1 := by
  obtain ⟨a1, a2, a3, a4, a5, a6⟩ :=
    sample_byte_range (BytebeatExpr.chain 10 [⟨5, SegValue.tone 3⟩]) 10 1 2
  refine ⟨a1, a2, a3, a4 6 ?_, a5, a6⟩
  rw [(by norm_num : ⌊(2 : ℚ)⌋ = 2)]
  have ht : jsMod 2 10 = 2 := by decide
  norm_num [evalExpr, evalSegs, SegValue.eval, ht]

/-- Claim C10: with a positive integer period and a positive step ratio the
accumulator satisfies `0 ≤ v < totalPeriod` after every number of steps
from the reset value 0, so the evaluated `t = floor(v)` satisfies
`0 ≤ t < totalPeriod` and the `t % totalPeriod` reduction inside the
compiled expression is the identity. -/
theorem accumulator_invariant (P : ℤ) (sr : ℚ) (hP : 0 < P) (hsr : 0 < sr) (n : ℕ) :
    0 ≤ iterAccum (P : ℚ) sr n ∧ iterAccum (P : ℚ) sr n < (P : ℚ) ∧
    0 ≤ ⌊iterAccum (P : ℚ) sr n⌋ ∧ ⌊iterAccum (P : ℚ) sr n⌋ < P ∧
    jsMod ⌊iterAccum (P : ℚ) sr n⌋ P = ⌊iterAccum (P : ℚ) sr n⌋ := by
  have hPQ : (0 : ℚ) < (P : ℚ) := by exact_mod_cast hP
  have key : ∀ k, 0 ≤ iterAccum (P : ℚ) sr k ∧ iterAccum (P : ℚ) sr k < (P : ℚ) := by
    intro k
    induction k with
    | zero => exact ⟨le_refl 0, hPQ⟩
    | succ k ih =>
      rcases ih with ⟨h0, h1⟩
      simp only [iterAccum, stepAccum]
      split
      · exact ⟨le_refl 0, hPQ⟩
      · next hlt => exact ⟨by linarith, lt_of_not_ge hlt⟩
  rcases key n with ⟨h0, h1⟩
  have hf0 : 0 ≤ ⌊iterAccum (P : ℚ) sr n⌋ := Int.le_floor.mpr (by exact_mod_cast h0)
  have hfP : ⌊iterAccum (P : ℚ) sr n⌋ < P := Int.floor_lt.mpr h1
  refine ⟨h0, h1, hf0, hfP, ?_⟩
  rw [jsMod, Int.tmod_eq_emod hf0 (le_of_lt hP)]
  exact Int.emod_eq_of_lt hf0 hfP

theorem accumulator_invariant_witness :
    (0 : ℤ) < 3 ∧ (0 : ℚ) < 1 / 2 ∧
    (0 ≤ iterAccum ((3 : ℤ) : ℚ) (1 / 2) 7 ∧ iterAccum ((3 : ℤ) : ℚ) (1 / 2) 7 < ((3 : ℤ) : ℚ) ∧
      0 ≤ ⌊iterAccum ((3 : ℤ) : ℚ) (1 / 2) 7⌋ ∧ ⌊iterAccum ((3 : ℤ) : ℚ) (1 / 2) 7⌋ < 3 ∧
      jsMod ⌊iterAccum ((3 : ℤ) : ℚ) (1 / 2) 7⌋ 3 = ⌊iterAccum ((3 : ℤ) : ℚ) (1 / 2) 7⌋) :=
  ⟨by norm_num, by norm_num, accumulator_invariant 3 (1 / 2) (by norm_num) (by norm_num) 7⟩

lemma genSegsAux_length (o : ConverterOptions) :
    ∀ (notes : List Note) (a : ℚ), notes.length ≤ (genSegsAux o a notes).length
  | [], _ => by simp [genSegsAux]
  | n :: rest, a => by
    have IH := genSegsAux_length o rest (a + n.duration * o.baseUnit)
    simp only [genSegsAux]
    split <;> simp only [List.length_cons] <;> omega

/-- Claim C4 counterexample: with the non-positive `totalPeriod = -5` the
compiler does not reject the configuration; it produces the complete
expression `((t%-5<1)?(t*1):0)` with the invalid period embedded as the
modulus. -/
theorem invalid_period_accepted_cex :
    generateBytebeat [⟨"x", 60, 0, 1, 1, 0⟩] ⟨1, 0, -5, 60, 1⟩ =
      BytebeatExpr.chain (-5) [⟨1, SegValue.tone 1⟩] ∧
    BytebeatExpr.chain (-5) [⟨1, SegValue.tone 1⟩] ≠ BytebeatExpr.zero := by
  constructor
  · norm_num [generateBytebeat, genSegsAux, toFixed2]
  · intro hcontra
    exact BytebeatExpr.noConfusion hcontra

/-- Claim C4 amended: compilation performs no configuration validation.
Even with a non-positive `totalPeriod` (and arbitrary, e.g. nonsensical,
coefficients) a non-empty note list always yields a complete chain
expression carrying the invalid period, with at least one segment per
note — nothing is rejected and no error is surfaced. -/
theorem compile_never_rejects (notes : List Note) (o : ConverterOptions)
    (_hP : o.totalPeriod ≤ 0) (h : notes ≠ []) :
    ∃ segs, generateBytebeat notes o = BytebeatExpr.chain o.totalPeriod segs ∧
      notes.length ≤ segs.length := by
  refine ⟨genSegsAux o 0 notes, ?_, genSegsAux_length o notes 0⟩
  unfold generateBytebeat
  rw [if_neg h]

theorem compile_never_rejects_witness :
    ((⟨1, 0, -5, 60, 1⟩ : ConverterOptions).totalPeriod ≤ 0) ∧
    ([(⟨"x", 60, 0, 1, 1, 0⟩ : Note)] ≠ []) ∧
    (∃ segs, generateBytebeat [⟨"x", 60, 0, 1, 1, 0⟩] ⟨1, 0, -5, 60, 1⟩ =
        BytebeatExpr.chain (⟨1, 0, -5, 60, 1⟩ : ConverterOptions).totalPeriod segs ∧
      [(⟨"x", 60, 0, 1, 1, 0⟩ : Note)].length ≤ segs.length) :=
  ⟨by norm_num, by simp,
    compile_never_rejects [⟨"x", 60, 0, 1, 1, 0⟩] ⟨1, 0, -5, 60, 1⟩ (by norm_num) (by simp)⟩

/-- Coercion of an integer list into the rationals, elementwise. -/
def castList (l : List ℤ) : List ℚ := l.map fun z => (z : ℚ)

lemma castList_cons (a : ℤ) (l : List ℤ) : castList (a :: l) = ((a : ℚ)) :: castList l := rfl

/-- Running cumulative sums of `duration * baseUnit`, starting from `a`. -/
def cumDurs (u : ℚ) : ℚ → List Note → List ℚ
  | _, [] => []
  | a, n :: rest => (a + n.duration * u) :: cumDurs u (a + n.duration * u) rest

/-- The sequence of cumulative sums of `duration * baseUnit` over the notes
in order. -/
def cumSums (u : ℚ) (notes : List Note) : List ℚ := cumDurs u 0 notes

/-- Claim C6 counterexample: two rest-free notes whose `duration*baseUnit`
values are 1/2 and 0 compile to thresholds `[0, 0]`, which neither equal
the cumulative sums `[1/2, 1/2]` nor form a strictly increasing
sequence. -/
theorem thresholds_cumsum_cex :
    exprThresholds (generateBytebeat
        [⟨"a", 60, 0, 1 / 2, 1, 0⟩, ⟨"b", 60, 0, 0, 1, 0⟩] ⟨1, 0, 100, 60, 1⟩) = [0, 0] ∧
    cumSums 1 [⟨"a", 60, 0, 1 / 2, 1, 0⟩, ⟨"b", 60, 0, 0, 1, 0⟩] = [1 / 2, 1 / 2] ∧
    castList (exprThresholds (generateBytebeat
        [⟨"a", 60, 0, 1 / 2, 1, 0⟩, ⟨"b", 60, 0, 0, 1, 0⟩] ⟨1, 0, 100, 60, 1⟩)) ≠
      cumSums 1 [⟨"a", 60, 0, 1 / 2, 1, 0⟩, ⟨"b", 60, 0, 0, 1, 0⟩] ∧
    ¬ List.Chain' (· < ·) (exprThresholds (generateBytebeat
        [⟨"a", 60, 0, 1 / 2, 1, 0⟩, ⟨"b", 60, 0, 0, 1, 0⟩] ⟨1, 0, 100, 60, 1⟩)) := by
  have hne : ([⟨"a", 60, 0, 1 / 2, 1, 0⟩, ⟨"b", 60, 0, 0, 1, 0⟩] : List Note) ≠ [] := by
    simp
  have hgen : generateBytebeat
      [⟨"a", 60, 0, 1 / 2, 1, 0⟩, ⟨"b", 60, 0, 0, 1, 0⟩] ⟨1, 0, 100, 60, 1⟩ =
      BytebeatExpr.chain 100 [⟨0, SegValue.tone 1⟩, ⟨0, SegValue.tone 1⟩] := by
    simp only [generateBytebeat]
    rw [if_neg hne]
    norm_num [genSegsAux, toFixed2]
  rw [hgen]
  refine ⟨by simp [exprThresholds], by norm_num [cumSums, cumDurs], ?_, ?_⟩
  · norm_num [exprThresholds, cumSums, cumDurs, castList]
  · simp [exprThresholds, List.chain'_cons]

lemma rest0_thresholds (o : ConverterOptions) :
    ∀ (notes : List Note) (az : ℤ),
      (∀ m ∈ notes, m.restAfter = 0) →
      (∀ m ∈ notes, ∃ k : ℕ, 0 < k ∧ m.duration * o.baseUnit = (k : ℚ)) →
      castList ((genSegsAux o (az : ℚ) notes).map Segment.threshold) =
          cumDurs o.baseUnit (az : ℚ) notes ∧
        List.Chain' (· < ·) (az :: (genSegsAux o (az : ℚ) notes).map Segment.threshold)
  | [], az => by
    intro _ _
    simp [genSegsAux, cumDurs, castList]
  | n :: rest, az => by
    intro h0 hk
    obtain ⟨k, hkpos, hdu⟩ := hk n (List.mem_cons_self n rest)
    have hr0 : n.restAfter = 0 := h0 n (List.mem_cons_self n rest)
    have hcast : (az : ℚ) + n.duration * o.baseUnit = (((az + (k : ℤ)) : ℤ) : ℚ) := by
      rw [hdu]
      push_cast
      ring
    have IH := rest0_thresholds o rest (az + (k : ℤ))
      (fun m hm => h0 m (List.mem_cons_of_mem n hm))
      (fun m hm => hk m (List.mem_cons_of_mem n hm))
    have hfloor : ⌊(az : ℚ) + n.duration * o.baseUnit - n.restAfter⌋ = az + (k : ℤ) := by
      rw [hr0, sub_zero, hcast, Int.floor_intCast]
    have hstep : genSegsAux o (az : ℚ) (n :: rest) =
        ⟨az + (k : ℤ), SegValue.tone (toFixed2 n.coeff)⟩ ::
          genSegsAux o (((az + (k : ℤ)) : ℤ) : ℚ) rest := by
      simp only [genSegsAux]
      rw [if_neg (by simp [hr0]), hfloor, hcast]
    have hcum : cumDurs o.baseUnit (az : ℚ) (n :: rest) =
        ((((az + (k : ℤ)) : ℤ) : ℚ)) :: cumDurs o.baseUnit (((az + (k : ℤ)) : ℤ) : ℚ) rest := by
      simp only [cumDurs]
      rw [hcast]
    rw [hstep]
    constructor
    · rw [hcum, List.map_cons, castList_cons, IH.1]
    · rw [List.map_cons, List.chain'_cons]
      refine ⟨?_, IH.2⟩
      show az < az + (k : ℤ)
      omega

/-- Claim C6 amended: for a note list in which every note has
`restAfter = 0` and every `duration * baseUnit` is a positive integer, the
compiled thresholds form a strictly increasing sequence equal to the
cumulative sums of `duration * baseUnit` over the notes in order. -/
theorem thresholds_cumsum_increasing (notes : List Note) (o : ConverterOptions)
    (h0 : ∀ m ∈ notes, m.restAfter = 0)
    (hk : ∀ m ∈ notes, ∃ k : ℕ, 0 < k ∧ m.duration * o.baseUnit = (k : ℚ)) :
    castList (exprThresholds (generateBytebeat notes o)) = cumSums o.baseUnit notes ∧
      List.Chain' (· < ·) (exprThresholds (generateBytebeat notes o)) := by
  by_cases h : notes = []
  · subst h
    simp [generateBytebeat, exprThresholds, cumSums, cumDurs, castList]
  · have hgen : generateBytebeat notes o =
        BytebeatExpr.chain o.totalPeriod (genSegsAux o 0 notes) := by
      unfold generateBytebeat
      rw [if_neg h]
    have hz : (0 : ℚ) = ((0 : ℤ) : ℚ) := by norm_num
    have key := rest0_thresholds o notes 0 h0 hk
    rw [hgen, exprThresholds, hz]
    exact ⟨by rw [key.1, cumSums, hz], key.2.tail⟩

theorem thresholds_cumsum_increasing_witness :
    (∀ m ∈ [(⟨"a", 60, 0, 1, 1, 0⟩ : Note), ⟨"b", 60, 0, 2, 1, 0⟩], m.restAfter = 0) ∧
    (∀ m ∈ [(⟨"a", 60, 0, 1, 1, 0⟩ : Note), ⟨"b", 60, 0, 2, 1, 0⟩],
      ∃ k : ℕ, 0 < k ∧ m.duration * (⟨1, 0, 100, 60, 1⟩ : ConverterOptions).baseUnit = (k : ℚ)) ∧
    (castList (exprThresholds (generateBytebeat [⟨"a", 60, 0, 1, 1, 0⟩, ⟨"b", 60, 0, 2, 1, 0⟩]
          ⟨1, 0, 100, 60, 1⟩)) =
        cumSums (⟨1, 0, 100, 60, 1⟩ : ConverterOptions).baseUnit
          [⟨"a", 60, 0, 1, 1, 0⟩, ⟨"b", 60, 0, 2, 1, 0⟩] ∧
      List.Chain' (· < ·) (exprThresholds (generateBytebeat
        [⟨"a", 60, 0, 1, 1, 0⟩, ⟨"b", 60, 0, 2, 1, 0⟩] ⟨1, 0, 100, 60, 1⟩))) := by
  have h0 : ∀ m ∈ [(⟨"a", 60, 0, 1, 1, 0⟩ : Note), ⟨"b", 60, 0, 2, 1, 0⟩], m.restAfter = 0 := by
    intro m hm
    simp only [List.mem_cons, List.mem_singleton] at hm
    rcases hm with rfl | rfl | hm
    · norm_num
    · norm_num
    · cases hm
  have hk : ∀ m ∈ [(⟨"a", 60, 0, 1, 1, 0⟩ : Note), ⟨"b", 60, 0, 2, 1, 0⟩],
      ∃ k : ℕ, 0 < k ∧ m.duration * (⟨1, 0, 100, 60, 1⟩ : ConverterOptions).baseUnit = (k : ℚ) := by
    intro m hm
    simp only [List.mem_cons, List.mem_singleton] at hm
    rcases hm with rfl | rfl | hm
    · exact ⟨1, by norm_num, by norm_num⟩
    · exact ⟨2, by norm_num, by norm_num⟩
    · cases hm
  exact ⟨h0, hk, thresholds_cumsum_increasing _ _ h0 hk⟩

theorem compile_segments_spec_witness :
    ([(⟨"a", 60, 0, 1, 1, 1⟩ : Note), ⟨"b", 62, 1, 2, 3 / 2, 0⟩] ≠ []) ∧
    generateBytebeat [⟨"a", 60, 0, 1, 1, 1⟩, ⟨"b", 62, 1, 2, 3 / 2, 0⟩] ⟨10, 0, 100, 60, 1⟩ =
      BytebeatExpr.chain (⟨10, 0, 100, 60, 1⟩ : ConverterOptions).totalPeriod
        (specSegments ⟨10, 0, 100, 60, 1⟩ [⟨"a", 60, 0, 1, 1, 1⟩, ⟨"b", 62, 1, 2, 3 / 2, 0⟩]) ∧
    evalExpr (generateBytebeat [⟨"a", 60, 0, 1, 1, 1⟩, ⟨"b", 62, 1, 2, 3 / 2, 0⟩]
        ⟨10, 0, 100, 60, 1⟩) 3 =
      firstMatchEval (⟨10, 0, 100, 60, 1⟩ : ConverterOptions).totalPeriod
        (specSegments ⟨10, 0, 100, 60, 1⟩ [⟨"a", 60, 0, 1, 1, 1⟩, ⟨"b", 62, 1, 2, 3 / 2, 0⟩]) 3 :=
  ⟨by simp,
    (compile_segments_spec [⟨"a", 60, 0, 1, 1, 1⟩, ⟨"b", 62, 1, 2, 3 / 2, 0⟩]
      ⟨10, 0, 100, 60, 1⟩ (by simp)).1,
    (compile_segments_spec [⟨"a", 60, 0, 1, 1, 1⟩, ⟨"b", 62, 1, 2, 3 / 2, 0⟩]
      ⟨10, 0, 100, 60, 1⟩ (by simp)).2 3⟩

/-- Claim C9: the end-to-end scenario.  Three notes of duration 1 with
coefficients 1, 2, 1 (as given by `pitchToCoeff` at pitches 60, 72, 60
relative to `basePitch = 60`, `baseCoeff = 1`) under `baseUnit = 1000`,
`totalPeriod = 3000` compile to thresholds `[1000, 2000, 3000]` with
coefficients `[1, 2, 1]`; evaluation at `t = 500` gives raw 500, byte 244
and sample 29/32 = 0.90625, and at `t = 1500` gives raw 3000, byte 184 and
sample 7/16 = 0.4375. -/
theorem end_to_end_scenario :
    exprThresholds (generateBytebeat
        [⟨"n0", 60, 0, 1, 1, 0⟩, ⟨"n1", 72, 1, 1, 2, 0⟩, ⟨"n2", 60, 2, 1, 1, 0⟩]
        ⟨1000, 0, 3000, 60, 1⟩) = [1000, 2000, 3000] ∧
    exprToneCoeffs (generateBytebeat
        [⟨"n0", 60, 0, 1, 1, 0⟩, ⟨"n1", 72, 1, 1, 2, 0⟩, ⟨"n2", 60, 2, 1, 1, 0⟩]
        ⟨1000, 0, 3000, 60, 1⟩) = [1, 2, 1] ∧
    evalExpr (generateBytebeat
        [⟨"n0", 60, 0, 1, 1, 0⟩, ⟨"n1", 72, 1, 1, 2, 0⟩, ⟨"n2", 60, 2, 1, 1, 0⟩]
        ⟨1000, 0, 3000, 60, 1⟩) 500 = 500 ∧
    jsByte (500 : ℚ) = 244 ∧ sampleOf (500 : ℚ) = 29 / 32 ∧
    evalExpr (generateBytebeat
        [⟨"n0", 60, 0, 1, 1, 0⟩, ⟨"n1", 72, 1, 1, 2, 0⟩, ⟨"n2", 60, 2, 1, 1, 0⟩]
        ⟨1000, 0, 3000, 60, 1⟩) 1500 = 3000 ∧
    jsByte (3000 : ℚ) = 184 ∧ sampleOf (3000 : ℚ) = 7 / 16 ∧
    pitchToCoeff 60 60 1 = 1 ∧ pitchToCoeff 72 60 1 = 2 := by
  have hne : ([⟨"n0", 60, 0, 1, 1, 0⟩, ⟨"n1", 72, 1, 1, 2, 0⟩, ⟨"n2", 60, 2, 1, 1, 0⟩] :
      List Note) ≠ [] := by simp
  have hgen : generateBytebeat
      [⟨"n0", 60, 0, 1, 1, 0⟩, ⟨"n1", 72, 1, 1, 2, 0⟩, ⟨"n2", 60, 2, 1, 1, 0⟩]
      ⟨1000, 0, 3000, 60, 1⟩ =
      BytebeatExpr.chain 3000
        [⟨1000, SegValue.tone 1⟩, ⟨2000, SegValue.tone 2⟩, ⟨3000, SegValue.tone 1⟩] := by
    simp only [generateBytebeat]
    rw [if_neg hne]
    norm_num [genSegsAux, toFixed2]
  have h500 : jsMod 500 3000 = 500 := by decide
  have h1500 : jsMod 1500 3000 = 1500 := by decide
  have hb500 : jsByte (500 : ℚ) = 244 := by
    rw [jsByte, ratTrunc, if_pos (by norm_num), (by norm_num : ⌊(500 : ℚ)⌋ = 500)]
    decide
  have hb3000 : jsByte (3000 : ℚ) = 184 := by
    rw [jsByte, ratTrunc, if_pos (by norm_num), (by norm_num : ⌊(3000 : ℚ)⌋ = 3000)]
    decide
  refine ⟨?_, ?_, ?_, hb500, ?_, ?_, hb3000, ?_, ?_, ?_⟩
  · rw [hgen]
    simp [exprThresholds]
  · rw [hgen]
    simp [exprToneCoeffs]
  · rw [hgen]
    norm_num [evalExpr, evalSegs, SegValue.eval, h500]
  · rw [sampleOf, hb500]
    norm_num
  · rw [hgen]
    norm_num [evalExpr, evalSegs, SegValue.eval, h1500]
  · rw [sampleOf, hb3000]
    norm_num
  · simp [pitchToCoeff]
  · rw [pitchToCoeff, (by norm_num : ((72 : ℝ) - 60) / 12 = 1), Real.rpow_one]
    norm_num

/-- Claim C5 counterexample: the first note has `restAfter = 3` exceeding
its sounding duration `5/2`, so its own segment (threshold `-1`) can never
fire; but at the integer time `t = 2`, which lies inside that note's
interval `[0, 5/2)`, the silence segment's threshold `floor(5/2) = 2` has
already been passed and the next note's segment captures the sample: the
output is the next note's sounding value `2 * 5 = 10`, not silence. -/
theorem collapsed_note_cex :
    ((⟨"a", 60, 0, 5 / 2, 1, 3⟩ : Note).duration *
        (⟨1, 0, 10, 60, 1⟩ : ConverterOptions).baseUnit <
      (⟨"a", 60, 0, 5 / 2, 1, 3⟩ : Note).restAfter) ∧
    ((2 : ℚ) < (⟨"a", 60, 0, 5 / 2, 1, 3⟩ : Note).duration *
        (⟨1, 0, 10, 60, 1⟩ : ConverterOptions).baseUnit) ∧
    evalExpr (generateBytebeat [⟨"a", 60, 0, 5 / 2, 1, 3⟩, ⟨"b", 64, 0, 1, 5, 0⟩]
        ⟨1, 0, 10, 60, 1⟩) 2 = 10 ∧
    (10 : ℚ) ≠ 0 := by
  have hne : ([⟨"a", 60, 0, 5 / 2, 1, 3⟩, ⟨"b", 64, 0, 1, 5, 0⟩] : List Note) ≠ [] := by simp
  have hgen : generateBytebeat [⟨"a", 60, 0, 5 / 2, 1, 3⟩, ⟨"b", 64, 0, 1, 5, 0⟩]
      ⟨1, 0, 10, 60, 1⟩ =
      BytebeatExpr.chain 10
        [⟨-1, SegValue.tone 1⟩, ⟨2, SegValue.silence⟩, ⟨3, SegValue.tone 5⟩] := by
    simp only [generateBytebeat]
    rw [if_neg hne]
    norm_num [genSegsAux, toFixed2]
  have hm : jsMod 2 10 = 2 := by decide
  refine ⟨by norm_num, by norm_num, ?_, by norm_num⟩
  rw [hgen]
  norm_num [evalExpr, evalSegs, SegValue.eval, hm]

lemma sumDu_nonneg (u : ℚ) (l : List Note) (h : ∀ m ∈ l, 0 ≤ m.duration * u) :
    0 ≤ sumDu u l := by
  unfold sumDu
  apply List.sum_nonneg
  intro x hx
  obtain ⟨m, hm, rfl⟩ := List.mem_map.mp hx
  exact h m hm

lemma sumDu_cons (u : ℚ) (m : Note) (l : List Note) :
    sumDu u (m :: l) = m.duration * u + sumDu u l := by
  simp [sumDu]

lemma evalSegs_skip (o : ConverterOptions) (P t : ℤ) (tail : List Note) :
    ∀ (l : List Note) (a : ℚ),
      (∀ m ∈ l, 0 ≤ m.duration * o.baseUnit ∧ 0 ≤ m.restAfter) →
      a + sumDu o.baseUnit l ≤ (t : ℚ) →
      jsMod t P = t →
      evalSegs P (genSegsAux o a (l ++ tail)) t =
        evalSegs P (genSegsAux o (a + sumDu o.baseUnit l) tail) t
  | [], a => by
    intro _ _ _
    simp [sumDu]
  | m :: l, a => by
    intro hml hsum hmod
    have hm := hml m (List.mem_cons_self m l)
    have hrest : ∀ x ∈ l, 0 ≤ x.duration * o.baseUnit ∧ 0 ≤ x.restAfter :=
      fun x hx => hml x (List.mem_cons_of_mem m hx)
    have hsl : 0 ≤ sumDu o.baseUnit l := sumDu_nonneg _ _ (fun x hx => (hrest x hx).1)
    have ha2 : a + m.duration * o.baseUnit + sumDu o.baseUnit l ≤ (t : ℚ) := by
      rw [sumDu_cons] at hsum
      linarith
    have htone : ⌊a + m.duration * o.baseUnit - m.restAfter⌋ ≤ t := by
      have hq : a + m.duration * o.baseUnit - m.restAfter ≤ ((t : ℤ) : ℚ) := by
        have := hm.2
        linarith
      calc ⌊a + m.duration * o.baseUnit - m.restAfter⌋ ≤ ⌊((t : ℤ) : ℚ)⌋ :=
            Int.floor_le_floor hq
        _ = t := Int.floor_intCast t
    have hsil : ⌊a + m.duration * o.baseUnit⌋ ≤ t := by
      have hq : a + m.duration * o.baseUnit ≤ ((t : ℤ) : ℚ) := by linarith
      calc ⌊a + m.duration * o.baseUnit⌋ ≤ ⌊((t : ℤ) : ℚ)⌋ := Int.floor_le_floor hq
        _ = t := Int.floor_intCast t
    have IH := evalSegs_skip o P t tail l (a + m.duration * o.baseUnit) hrest
      (by linarith) hmod
    have harg : a + m.duration * o.baseUnit + sumDu o.baseUnit l =
        a + sumDu o.baseUnit (m :: l) := by
      rw [sumDu_cons]
      ring
    rw [List.cons_append]
    simp only [genSegsAux]
    by_cases hc : 0 < m.restAfter ∧ l ++ tail ≠ []
    · rw [if_pos hc, evalSegs, if_neg (by simp only [hmod, Segment.mk.injEq]; omega), evalSegs,
        if_neg (by simp only [hmod, Segment.mk.injEq]; omega), IH, harg]
    · rw [if_neg hc, evalSegs, if_neg (by simp only [hmod, Segment.mk.injEq]; omega), IH, harg]

/-- Claim C5 amended: such a malformed note is accepted without rejection
and its own sounding branch can never be taken; and provided every earlier
note has nonnegative `duration*baseUnit` and `restAfter`, the collapsed
note's `duration*baseUnit` is nonnegative, and the cursor boundary at the
end of the note is an integer, every evaluated time `t` inside the note's
interval (with `0 ≤ t < totalPeriod`) produces silence (zero) instead of
that note's value.  (Without the integer-boundary proviso the time
`t = floor` of a fractional boundary can be captured by the next note's
segment — see the counterexample.) -/
theorem collapsed_note_silent (o : ConverterOptions) (pre post : List Note) (n : Note) (t : ℤ)
    (hpre : ∀ m ∈ pre, 0 ≤ m.duration * o.baseUnit ∧ 0 ≤ m.restAfter)
    (hdn : 0 ≤ n.duration * o.baseUnit)
    (hn : n.duration * o.baseUnit < n.restAfter)
    (hint : ∃ kz : ℤ, sumDu o.baseUnit pre + n.duration * o.baseUnit = (kz : ℚ))
    (hP : 0 < o.totalPeriod)
    (ht0 : 0 ≤ t) (htP : t < o.totalPeriod)
    (ht1 : sumDu o.baseUnit pre ≤ (t : ℚ))
    (ht2 : (t : ℚ) < sumDu o.baseUnit pre + n.duration * o.baseUnit) :
    evalExpr (generateBytebeat (pre ++ n :: post) o) t = 0 := by
  have hne : pre ++ n :: post ≠ [] := by simp
  have hmod : jsMod t o.totalPeriod = t := by
    rw [jsMod, Int.tmod_eq_emod ht0 (le_of_lt hP)]
    exact Int.emod_eq_of_lt ht0 htP
  unfold generateBytebeat
  rw [if_neg hne]
  show evalSegs o.totalPeriod (genSegsAux o 0 (pre ++ n :: post)) t = 0
  rw [evalSegs_skip o o.totalPeriod t (n :: post) pre 0 hpre (by rw [zero_add]; exact ht1)
    hmod, zero_add]
  obtain ⟨kz, hkz⟩ := hint
  have htone : ⌊sumDu o.baseUnit pre + n.duration * o.baseUnit - n.restAfter⌋ ≤ t := by
    have hq : sumDu o.baseUnit pre + n.duration * o.baseUnit - n.restAfter ≤ ((t : ℤ) : ℚ) := by
      linarith
    calc ⌊sumDu o.baseUnit pre + n.duration * o.baseUnit - n.restAfter⌋ ≤ ⌊((t : ℤ) : ℚ)⌋ :=
          Int.floor_le_floor hq
      _ = t := Int.floor_intCast t
  simp only [genSegsAux]
  by_cases hpost : post = []
  · subst hpost
    rw [if_neg (by simp), evalSegs, if_neg (by simp only [hmod, Segment.mk.injEq]; omega)]
    simp [genSegsAux, evalSegs]
  · have hrn : 0 < n.restAfter := lt_of_le_of_lt hdn hn
    rw [if_pos ⟨hrn, hpost⟩, evalSegs, if_neg (by simp only [hmod, Segment.mk.injEq]; omega)]
    have hflo : ⌊sumDu o.baseUnit pre + n.duration * o.baseUnit⌋ = kz := by
      rw [hkz, Int.floor_intCast]
    have htlt : t < kz := by
      have hq : ((t : ℤ) : ℚ) < (kz : ℚ) := by
        rw [← hkz]
        exact ht2
      exact_mod_cast hq
    rw [evalSegs, if_pos (by rw [hmod, hflo]; exact htlt)]
    rfl

theorem collapsed_note_silent_witness :
    ((⟨"q", 60, 0, 1, 1, 2⟩ : Note).duration * (⟨1, 0, 10, 60, 1⟩ : ConverterOptions).baseUnit <
      (⟨"q", 60, 0, 1, 1, 2⟩ : Note).restAfter) ∧
    sumDu (⟨1, 0, 10, 60, 1⟩ : ConverterOptions).baseUnit [⟨"p", 60, 0, 1, 1, 0⟩] ≤ ((1 : ℤ) : ℚ) ∧
    evalExpr (generateBytebeat
      ([⟨"p", 60, 0, 1, 1, 0⟩] ++ (⟨"q", 60, 0, 1, 1, 2⟩ : Note) :: [⟨"r", 60, 0, 1, 1, 0⟩])
      ⟨1, 0, 10, 60, 1⟩) 1 = 0 :=
  ⟨by norm_num, by norm_num [sumDu],
    collapsed_note_silent ⟨1, 0, 10, 60, 1⟩ [⟨"p", 60, 0, 1, 1, 0⟩] [⟨"r", 60, 0, 1, 1, 0⟩]
      ⟨"q", 60, 0, 1, 1, 2⟩ 1
      (by
        intro m hm
        simp only [List.mem_singleton] at hm
        subst hm
        norm_num)
      (by norm_num) (by norm_num)
      ⟨2, by norm_num [sumDu]⟩
      (by norm_num) (by norm_num) (by norm_num)
      (by norm_num [sumDu]) (by norm_num [sumDu])⟩
